import Mathlib

/-!
Verification development for the SimpleElasticSearch engine
(`search_engine/engine/indexer.py`, `search_engine/engine/searcher.py`,
`search_engine/engine/storage.py`).

The Python dictionaries (`inverted_index`, `document_store`,
`term_document_freq`, `phrase_cache`) are modelled as insertion-ordered
association lists, matching CPython dict semantics (lookup by key, update
in place keeps the position, a new key is appended at the end).  Term
frequencies and scores are modelled as exact rationals; `math.log` is
modelled as `Real.log` in `calculate_idf`.  The search functions take the
idf values as a function argument `idfv : String → ℚ` standing for the
per-term values of `Indexer._calculate_idf`, so that the purely structural
behaviour (membership, ordering, caching) is quantified over every idf
assignment, while `calculate_idf` itself is treated separately over `ℝ`.
-/

set_option allowUnsafeReducibility true
attribute [local semireducible] Rat.add Rat.mul Rat.div Rat.sub Rat.neg Rat.inv

namespace SimpleElasticSearch

/-! ## Association-list model of Python dictionaries -/

/-- Lookup in an insertion-ordered dictionary (`d[k]` / `d.get(k)`). -/
def alGet {α : Type _} : List (String × α) → String → Option α
  | [], _ => none
  | p :: rest, k => if p.1 = k then some p.2 else alGet rest k

/-- Lookup with a default value. -/
def alGetD {α : Type _} (m : List (String × α)) (k : String) (d : α) : α :=
  (alGet m k).getD d

/-- Replace the value stored under an existing key, keeping its position. -/
def alReplace {α : Type _} : List (String × α) → String → α → List (String × α)
  | [], _, _ => []
  | p :: rest, k, v => if p.1 = k then (k, v) :: alReplace rest k v else p :: alReplace rest k v

/-- Python dict assignment `d[k] = v`: update in place if the key exists,
append at the end otherwise. -/
def alSet {α : Type _} (m : List (String × α)) (k : String) (v : α) : List (String × α) :=
  if (alGet m k).isSome then alReplace m k v else m ++ [(k, v)]

/-- The keys of a dictionary, in insertion order. -/
def alKeys {α : Type _} (m : List (String × α)) : List String :=
  m.map Prod.fst

@[simp] theorem alGet_nil {α : Type _} (k : String) : alGet ([] : List (String × α)) k = none :=
  rfl

theorem alGet_cons {α : Type _} (p : String × α) (rest : List (String × α)) (k : String) :
    alGet (p :: rest) k = if p.1 = k then some p.2 else alGet rest k := rfl

theorem alGet_append {α : Type _} (m m' : List (String × α)) (k : String) :
    alGet (m ++ m') k = match alGet m k with
      | some v => some v
      | none => alGet m' k := by
  induction m with
  | nil => simp
  | cons p rest ih =>
    by_cases h : p.1 = k <;> simp [alGet_cons, h, ih]

theorem alGet_alReplace_ne {α : Type _} (m : List (String × α)) {k k' : String} (v : α)
    (h : k ≠ k') : alGet (alReplace m k v) k' = alGet m k' := by
  induction m with
  | nil => rfl
  | cons p rest ih =>
    by_cases hp : p.1 = k
    · simp [alReplace, hp, alGet_cons, h, ih]
    · simp only [alReplace, hp, if_false, alGet_cons, ih]

theorem alGet_alReplace_self {α : Type _} (m : List (String × α)) {k : String} (v : α)
    (h : (alGet m k).isSome) : alGet (alReplace m k v) k = some v := by
  induction m with
  | nil => simp [alGet] at h
  | cons p rest ih =>
    by_cases hp : p.1 = k
    · simp [alReplace, hp, alGet_cons]
    · simp only [alGet_cons, hp, if_false] at h
      simp [alReplace, hp, alGet_cons, ih h]

/-- Characterisation of lookup after a dict assignment. -/
theorem alGet_alSet {α : Type _} (m : List (String × α)) (k k' : String) (v : α) :
    alGet (alSet m k v) k' = if k = k' then some v else alGet m k' := by
  unfold alSet
  by_cases hs : (alGet m k).isSome
  · rw [if_pos hs]
    by_cases hk : k = k'
    · subst hk
      rw [if_pos rfl, alGet_alReplace_self m v hs]
    · rw [if_neg hk, alGet_alReplace_ne m v hk]
  · rw [if_neg hs, alGet_append]
    by_cases hk : k = k'
    · subst hk
      rw [if_pos rfl]
      cases hg : alGet m k with
      | some v' => rw [hg] at hs; simp at hs
      | none => simp [alGet_cons]
    · rw [if_neg hk]
      cases hg : alGet m k' with
      | some v' => rfl
      | none => simp [alGet_cons, hk]

@[simp] theorem alGet_alSet_self {α : Type _} (m : List (String × α)) (k : String) (v : α) :
    alGet (alSet m k v) k = some v := by
  simp [alGet_alSet]

theorem alGet_alSet_ne {α : Type _} (m : List (String × α)) {k k' : String} (v : α)
    (h : k ≠ k') : alGet (alSet m k v) k' = alGet m k' := by
  simp [alGet_alSet, h]

theorem isSome_alGet_iff_mem_alKeys {α : Type _} (m : List (String × α)) (k : String) :
    (alGet m k).isSome ↔ k ∈ alKeys m := by
  induction m with
  | nil => simp [alKeys]
  | cons p rest ih =>
    by_cases hp : p.1 = k <;> simp [alGet_cons, hp, alKeys, ih]
    exact fun h => (hp h.symm).elim

theorem alKeys_alReplace {α : Type _} (m : List (String × α)) (k : String) (v : α) :
    alKeys (alReplace m k v) = alKeys m := by
  induction m with
  | nil => rfl
  | cons p rest ih =>
    unfold alKeys at ih ⊢
    by_cases hp : p.1 = k
    · simp only [alReplace, hp, if_true, List.map_cons, ih]
    · simp only [alReplace, hp, if_false, List.map_cons, ih]

theorem alKeys_alSet {α : Type _} (m : List (String × α)) (k : String) (v : α) :
    alKeys (alSet m k v) = if (alGet m k).isSome then alKeys m else alKeys m ++ [k] := by
  unfold alSet
  by_cases hs : (alGet m k).isSome
  · rw [if_pos hs, if_pos hs, alKeys_alReplace]
  · rw [if_neg hs, if_neg hs]
    unfold alKeys
    simp

theorem mem_alKeys_alSet {α : Type _} (m : List (String × α)) (k k' : String) (v : α) :
    k' ∈ alKeys (alSet m k v) ↔ k' = k ∨ k' ∈ alKeys m := by
  rw [alKeys_alSet]
  by_cases hs : (alGet m k).isSome
  · simp only [hs, if_true]
    constructor
    · exact Or.inr
    · rintro (rfl | h)
      · exact (isSome_alGet_iff_mem_alKeys _ _).mp hs
      · exact h
  · simp [hs, or_comm]

theorem alNodupKeys_alSet {α : Type _} (m : List (String × α)) (k : String) (v : α)
    (h : (alKeys m).Nodup) : (alKeys (alSet m k v)).Nodup := by
  rw [alKeys_alSet]
  by_cases hs : (alGet m k).isSome
  · rw [if_pos hs]
    exact h
  · rw [if_neg hs]
    have hk : k ∉ alKeys m := fun hm => hs ((isSome_alGet_iff_mem_alKeys m k).mpr hm)
    simpa [List.nodup_append] using ⟨h, hk⟩

/-- Every entry of `alSet m k v` is the new pair or an entry of `m`. -/
theorem mem_of_mem_alSet {α : Type _} {m : List (String × α)} {k : String} {v : α}
    {p : String × α} (h : p ∈ alSet m k v) : p = (k, v) ∨ p ∈ m := by
  unfold alSet at h
  by_cases hs : (alGet m k).isSome
  · rw [if_pos hs] at h
    clear hs
    induction m with
    | nil => simp [alReplace] at h
    | cons q rest ih =>
      by_cases hq : q.1 = k
      · simp only [alReplace, hq, if_true] at h
        rcases List.mem_cons.mp h with h | h
        · exact Or.inl h
        · rcases ih h with h | h
          · exact Or.inl h
          · exact Or.inr (List.mem_cons_of_mem _ h)
      · simp only [alReplace, hq, if_false] at h
        rcases List.mem_cons.mp h with h | h
        · exact Or.inr (h ▸ List.mem_cons_self _ _)
        · rcases ih h with h | h
          · exact Or.inl h
          · exact Or.inr (List.mem_cons_of_mem _ h)
  · rw [if_neg hs] at h
    rcases List.mem_append.mp h with h | h
    · exact Or.inr h
    · exact Or.inl (List.mem_singleton.mp h)

theorem alGet_eq_some_mem {α : Type _} {m : List (String × α)} {k : String} {v : α}
    (h : alGet m k = some v) : (k, v) ∈ m := by
  induction m with
  | nil => simp [alGet] at h
  | cons p rest ih =>
    by_cases hp : p.1 = k
    · rw [alGet_cons, if_pos hp] at h
      obtain rfl : p.2 = v := Option.some.inj h
      exact hp ▸ List.mem_cons_self _ _
    · rw [alGet_cons, if_neg hp] at h
      exact List.mem_cons_of_mem _ (ih h)



/-! ## Preprocessing (`Indexer._preprocess_text`) -/

/-- The characters of Python `string.punctuation`. -/
def punctuation : List Char :=
  ['!', '\x22', '#', '$', '%', '&', '\x27', '(', ')', '*', '+', ',', '-', '.', '/',
   ':', ';', '<', '=', '>', '?', '@', '[', '\x5c', ']', '^', '_', '\x60', '\x7b', '|',
   '\x7d', '~']

/-- Models `nltk.corpus.stopwords.words('english')`.  The apostrophe-bearing
entries of the NLTK list (such as contractions) are omitted: preprocessing
replaces every apostrophe by a space before tokenizing, so no token can ever
equal one of them. -/
def stop_words : List String :=
  ["i", "me", "my", "myself", "we", "our", "ours", "ourselves", "you", "your",
   "yours", "yourself", "yourselves", "he", "him", "his", "himself", "she",
   "her", "hers", "herself", "it", "its", "itself", "they", "them", "their",
   "theirs", "themselves", "what", "which", "who", "whom", "this", "that",
   "these", "those", "am", "is", "are", "was", "were", "be", "been", "being",
   "have", "has", "had", "having", "do", "does", "did", "doing", "a", "an",
   "the", "and", "but", "if", "or", "because", "as", "until", "while", "of",
   "at", "by", "for", "with", "about", "against", "between", "into", "through",
   "during", "before", "after", "above", "below", "to", "from", "up", "down",
   "in", "out", "on", "off", "over", "under", "again", "further", "then",
   "once", "here", "there", "when", "where", "why", "how", "all", "any",
   "both", "each", "few", "more", "most", "other", "some", "such", "no",
   "nor", "not", "only", "own", "same", "so", "than", "too", "very", "s",
   "t", "can", "will", "just", "don", "should", "now", "d", "ll", "m", "o",
   "re", "ve", "y", "ain", "aren", "couldn", "didn", "doesn", "hadn", "hasn",
   "haven", "isn", "ma", "mightn", "mustn", "needn", "shan", "shouldn",
   "wasn", "weren", "won", "wouldn"]

/-- Split a character list at spaces (the whitespace produced by the
punctuation replacement); empty fragments are kept, to be dropped by the
length filter. -/
def split_on_spaces : List Char → List Char → List (List Char)
  | [], acc => [acc.reverse]
  | c :: rest, acc =>
    if c = ' ' then acc.reverse :: split_on_spaces rest []
    else split_on_spaces rest (c :: acc)

/-- Embeds `Indexer._preprocess_text`: lowercase, replace punctuation by
spaces, tokenize (modelled as whitespace splitting, which agrees with
`nltk.word_tokenize` on the punctuation-free space-separated text produced
by the preceding steps), then drop stopwords and tokens of length ≤ 1. -/
def preprocess_text (text : String) : List String :=
  let lowered := text.data.map Char.toLower
  let depunct := lowered.map fun c => if punctuation.contains c then ' ' else c
  let tokens := (split_on_spaces depunct []).map List.asString
  tokens.filter fun t => decide (t ∉ stop_words) && decide (1 < t.length)

/-! ## Term-frequency vectors (`_calculate_tf`, `_build_document_vector`) -/

/-- Embeds `Indexer._calculate_tf`. -/
def calculate_tf (term_freq : Nat) (total_terms : Nat) : ℚ :=
  if 0 < total_terms then (term_freq : ℚ) / (total_terms : ℚ) else 0

/-- Models `collections.Counter(tokens)`: occurrence counts keyed by term,
in first-occurrence order. -/
def counter (tokens : List String) : List (String × Nat) :=
  tokens.foldl (fun acc t => alSet acc t (alGetD acc t 0 + 1)) []

/-- Embeds `Indexer._build_document_vector`. -/
def build_document_vector (tokens : List String) : List (String × ℚ) :=
  (counter tokens).map fun p => (p.1, calculate_tf p.2 tokens.length)

/-! ## The engine state -/

/-- An ingestion request: the `document` dict handed to `index_document`
(absent `title`/`data` fields are already the empty string, as produced by
`document.get(..., '')`). -/
structure Document where
  id : String
  title : String
  data : String
deriving DecidableEq, Repr

/-- A stored document record (`doc_record` in `index_document`). -/
structure DocRecord where
  id : String
  title : String
  data : String
  title_tokens : List String
  data_tokens : List String
deriving DecidableEq, Repr

/-- One posting: the per-field term frequencies stored under
`inverted_index[term][doc_id]`. -/
structure PostingEntry where
  title_tf : ℚ
  data_tf : ℚ
deriving DecidableEq, Repr

/-- One search result dict `{id, title, data, score}`. -/
structure SearchResult where
  id : String
  title : String
  data : String
  score : ℚ
deriving DecidableEq, Repr

/-- The in-memory state of the `Indexer` (the storage object carries no
in-memory search state and is modelled only through its failure behaviour,
see `index_document_f`). -/
structure Indexer where
  inverted_index : List (String × List (String × PostingEntry))
  document_store : List (String × DocRecord)
  term_document_freq : List (String × Nat)
  total_documents : Nat
  phrase_cache : List (String × List SearchResult)
deriving DecidableEq, Repr

/-- The state constructed by `Indexer.__init__` when no persisted index
exists (all loads fall back to empty structures). -/
def emptyIndexer : Indexer :=
  { inverted_index := [], document_store := [], term_document_freq := [],
    total_documents := 0, phrase_cache := [] }

/-! ## Ingestion (`Indexer.index_document`) -/

/-- The `doc_record` built at the start of `index_document`. -/
def make_doc_record (document : Document) : DocRecord :=
  { id := document.id, title := document.title, data := document.data,
    title_tokens := preprocess_text document.title,
    data_tokens := preprocess_text document.data }

/-- The first update loop of `index_document`: for every term of the title
vector, the whole posting is overwritten with `{title_tf: tf, data_tf: 0.0}`. -/
def index_title_terms (doc_id : String) (title_vector : List (String × ℚ))
    (ii : List (String × List (String × PostingEntry))) :
    List (String × List (String × PostingEntry)) :=
  title_vector.foldl
    (fun ii p => alSet ii p.1 (alSet (alGetD ii p.1 []) doc_id ⟨p.2, 0⟩)) ii

/-- The second update loop of `index_document`: for every term of the data
vector, only `data_tf` is updated when a posting for `(term, doc_id)` already
exists, and a fresh posting `{title_tf: 0.0, data_tf: tf}` is created
otherwise. -/
def index_data_terms (doc_id : String) (data_vector : List (String × ℚ))
    (ii : List (String × List (String × PostingEntry))) :
    List (String × List (String × PostingEntry)) :=
  data_vector.foldl
    (fun ii p =>
      match alGet (alGetD ii p.1 []) doc_id with
      | some entry => alSet ii p.1 (alSet (alGetD ii p.1 []) doc_id ⟨entry.title_tf, p.2⟩)
      | none => alSet ii p.1 (alSet (alGetD ii p.1 []) doc_id ⟨0, p.2⟩)) ii

/-- Embeds `Indexer.index_document` (its in-memory effect; the two
storage saves have none).  `updated_terms` is a Python set iterated in an
unspecified order; it is modelled in a fixed order, which changes at most
the insertion order of fresh `term_document_freq` keys and no stored
count. -/
def index_document (document : Document) (s : Indexer) : Indexer :=
  let doc_id := document.id
  let doc_record := make_doc_record document
  let document_store := alSet s.document_store doc_id doc_record
  let title_vector := build_document_vector doc_record.title_tokens
  let data_vector := build_document_vector doc_record.data_tokens
  let ii := index_data_terms doc_id data_vector
    (index_title_terms doc_id title_vector s.inverted_index)
  let updated_terms := (alKeys title_vector ++ alKeys data_vector).dedup
  let term_document_freq :=
    updated_terms.foldl (fun m t => alSet m t (alGetD m t 0 + 1)) s.term_document_freq
  { inverted_index := ii
    document_store := document_store
    term_document_freq := term_document_freq
    total_documents := s.total_documents + 1
    phrase_cache := [] }

/-! ## Statistics (`Indexer.get_index_stats`) -/

/-- The in-memory statistics of `get_index_stats` (`index_size_bytes`, the
on-disk byte total reported by the storage layer, has no in-memory
counterpart and is omitted). -/
structure IndexStats where
  total_documents : Nat
  unique_terms : Nat
deriving DecidableEq, Repr

/-- Embeds `Indexer.get_index_stats` (without `index_size_bytes`). -/
def get_index_stats (s : Indexer) : IndexStats :=
  { total_documents := s.total_documents,
    unique_terms := s.inverted_index.length }

/-! ## Ingestion under persistence failures -/

/-- The exception raised by a failing storage write. -/
inductive StorageError
  | storageError
deriving DecidableEq, Repr

/-- The two points of `index_document` at which a storage write can raise:
`storage.save_document` (after the document-store update, before any index
mutation) and `_save_index` (after every in-memory mutation). -/
inductive SavePoint
  | saveDocument
  | saveIndex
deriving DecidableEq, Repr

/-- Embeds `index_document` together with its storage calls: `failAt` says
which storage write (if any) raises.  The first component is what the call
returns (or raises), the second is the in-memory state after the call —
Python leaves every mutation already performed in place when an exception
propagates. -/
def index_document_f (failAt : Option SavePoint) (document : Document) (s : Indexer) :
    Except StorageError Indexer × Indexer :=
  let afterStore : Indexer :=
    { s with document_store := alSet s.document_store document.id (make_doc_record document) }
  match failAt with
  | some SavePoint.saveDocument => (Except.error StorageError.storageError, afterStore)
  | some SavePoint.saveIndex => (Except.error StorageError.storageError, index_document document s)
  | none => (Except.ok (index_document document s), index_document document s)

example : preprocess_text "Dogs are loyal" = ["dogs", "loyal"] := by decide
example : preprocess_text "Cats and Dogs" = ["cats", "dogs"] := by decide
example : preprocess_text "Cats are great pets" = ["cats", "great", "pets"] := by decide
example : preprocess_text "" = [] := by decide
example : build_document_vector ["cats", "dogs", "cats"] = [("cats", 2/3), ("dogs", 1/3)] := by decide

/-! ## Field filters and scoring -/

/-- The meaningful values of the `field` parameter (`'title'`, `'data'`, or
Python `None`, modelled by `Option`). -/
inductive Field
  | title
  | data
deriving DecidableEq, Repr

/-- Python `f"{field}"` as used in the cache keys. -/
def field_str : Option Field → String
  | none => "None"
  | some Field.title => "title"
  | some Field.data => "data"

/-- The cache key `f"{text}:{field}"` used by `search` and `_phrase_search`. -/
def cache_key (text : String) (field : Option Field) : String :=
  text ++ ":" ++ field_str field

/-- The tf selected for a posting given the field filter (the
`if field == 'title' / elif field == 'data' / else max(...)` ladder shared by
`_term_search` and `_phrase_search`). -/
def select_tf (field : Option Field) (entry : PostingEntry) : ℚ :=
  match field with
  | some Field.title => entry.title_tf
  | some Field.data => entry.data_tf
  | none => max entry.title_tf entry.data_tf

/-- The posting stored under `inverted_index[term][doc_id]`, if any. -/
def posting_of (s : Indexer) (term doc_id : String) : Option PostingEntry :=
  (alGet s.inverted_index term).bind fun postings => alGet postings doc_id

/-- The tf·idf contribution of one query term to one document: zero when the
term has no posting for the document. -/
def term_score (idfv : String → ℚ) (s : Indexer) (field : Option Field)
    (term doc_id : String) : ℚ :=
  match posting_of s term doc_id with
  | some entry => select_tf field entry * idfv term
  | none => 0

/-- The accumulated score `Σ tf·idf` of a document over a list of query
terms. -/
def accum_score (idfv : String → ℚ) (s : Indexer) (field : Option Field)
    (terms : List String) (doc_id : String) : ℚ :=
  (terms.map fun t => term_score idfv s field t doc_id).sum

/-! ## Ranking (Python stable sort, descending by score) -/

/-- Descending-score order on the `(doc_id, score)` pairs of `_term_search`. -/
def score_desc (a b : String × ℚ) : Prop :=
  b.2 ≤ a.2

instance : DecidableRel score_desc :=
  fun a b => inferInstanceAs (Decidable (b.2 ≤ a.2))

instance : IsTotal (String × ℚ) score_desc :=
  ⟨fun a b => le_total b.2 a.2⟩

instance : IsTrans (String × ℚ) score_desc :=
  ⟨fun _ _ _ h h2 => le_trans h2 h⟩

/-- Descending-score order on result dicts (`_phrase_search`'s sort). -/
def result_score_desc (a b : SearchResult) : Prop :=
  b.score ≤ a.score

instance : DecidableRel result_score_desc :=
  fun a b => inferInstanceAs (Decidable (b.score ≤ a.score))

instance : IsTotal SearchResult result_score_desc :=
  ⟨fun a b => le_total b.score a.score⟩

instance : IsTrans SearchResult result_score_desc :=
  ⟨fun _ _ _ h h2 => le_trans h2 h⟩

/-! ## Term search (`Searcher._term_search`) -/

/-- The body of the `for term in terms` loop of `_term_search`: skip a term
without postings, otherwise add the selected tf times the term's idf to the
accumulated score of every document holding a posting. -/
def term_search_step (idfv : String → ℚ) (s : Indexer) (field : Option Field)
    (acc : List (String × ℚ)) (term : String) : List (String × ℚ) :=
  match alGet s.inverted_index term with
  | none => acc
  | some postings =>
    postings.foldl
      (fun acc2 p => alSet acc2 p.1 (alGetD acc2 p.1 0 + select_tf field p.2 * idfv term))
      acc

/-- The `doc_scores` dict computed by `_term_search`. -/
def doc_scores_of (idfv : String → ℚ) (s : Indexer) (field : Option Field)
    (terms : List String) : List (String × ℚ) :=
  terms.foldl (term_search_step idfv s field) []

/-- Embeds `Searcher._term_search`.  `idfv` stands for the values of
`Indexer._calculate_idf`; the Python stable sort (descending by score) is
modelled by the stable `insertionSort` with `score_desc`. -/
def term_search (idfv : String → ℚ) (s : Indexer) (terms : List String)
    (field : Option Field) : List SearchResult :=
  if terms.isEmpty then []
  else
    let ranked_docs := List.insertionSort score_desc (doc_scores_of idfv s field terms)
    ranked_docs.filterMap fun p =>
      (alGet s.document_store p.1).map fun doc =>
        { id := doc.id, title := doc.title, data := doc.data, score := p.2 }

/-! ## Phrase verification (`Searcher._check_consecutive_terms`) -/

/-- The inner `for j` loop of `_check_consecutive_terms`: do the phrase
terms equal the tokens at the current offset, position by position? -/
def terms_match_at : List String → List String → Bool
  | [], _ => true
  | _ :: _, [] => false
  | p :: ps, t :: ts => decide (p = t) && terms_match_at ps ts

/-- Embeds `Searcher._check_consecutive_terms`: the sliding-window scan over
all offsets (the `for i` loop, unrolled as recursion on the token list). -/
def check_consecutive_terms (tokens phrase_terms : List String) : Bool :=
  if tokens.length < phrase_terms.length then false
  else
    match tokens with
    | [] => true
    | t :: rest =>
      terms_match_at phrase_terms (t :: rest) || check_consecutive_terms rest phrase_terms

/-- The `phrase_in_title or phrase_in_data` test of `_phrase_search` for one
candidate document under the field filter. -/
def phrase_match (field : Option Field) (phrase_terms : List String) (doc : DocRecord) : Bool :=
  (decide (field = none ∨ field = some Field.title)
      && check_consecutive_terms doc.title_tokens phrase_terms)
    || (decide (field = none ∨ field = some Field.data)
      && check_consecutive_terms doc.data_tokens phrase_terms)

/-- The phrase score of a qualifying candidate: the accumulated tf·idf over
the phrase terms, doubled by the fixed phrase-match boost. -/
def phrase_score (idfv : String → ℚ) (s : Indexer) (field : Option Field)
    (phrase_terms : List String) (doc_id : String) : ℚ :=
  2 * accum_score idfv s field phrase_terms doc_id

/-- The candidate set of `_phrase_search`: the ids holding a posting for the
first phrase term, intersected with those of every later term (in the order
of the first term's posting dict). -/
def phrase_candidates (s : Indexer) (phrase_terms : List String) : List String :=
  match phrase_terms with
  | [] => []
  | t :: rest =>
    match alGet s.inverted_index t with
    | none => []
    | some postings =>
      if rest.all (fun term => (alGet s.inverted_index term).isSome) then
        (alKeys postings).filter fun doc_id =>
          rest.all fun term => (alGet (alGetD s.inverted_index term []) doc_id).isSome
      else []

/-! ## Phrase search (`Searcher._phrase_search`) -/

/-- The unranked verification results of `_phrase_search`: each candidate is
looked up in the document store and kept (with its boosted score) when the
phrase matches an allowed field. -/
def phrase_results (idfv : String → ℚ) (s : Indexer) (phrase : String)
    (field : Option Field) : List SearchResult :=
  (phrase_candidates s (preprocess_text phrase)).filterMap fun doc_id =>
    (alGet s.document_store doc_id).bind fun doc =>
      if phrase_match field (preprocess_text phrase) doc then
        some { id := doc.id, title := doc.title, data := doc.data,
               score := phrase_score idfv s field (preprocess_text phrase) doc_id }
      else none

/-- Embeds `Searcher._phrase_search`.  The result is `none` exactly when the
Python code raises `KeyError` on `document_store[doc_id]` for some candidate
(see the reachability invariant, which rules this out); otherwise it is the
ranked result list together with the state after the cache write.  The early
empty returns (empty phrase, missing phrase term) bypass the cache exactly
as in the source. -/
def phrase_search (idfv : String → ℚ) (s : Indexer) (phrase : String)
    (field : Option Field) : Option (List SearchResult × Indexer) :=
  match alGet s.phrase_cache (cache_key phrase field) with
  | some cached => some (cached, s)
  | none =>
    if (preprocess_text phrase).isEmpty then some ([], s)
    else if (preprocess_text phrase).any
        (fun term => (alGet s.inverted_index term).isNone) then
      some ([], s)
    else if (phrase_candidates s (preprocess_text phrase)).any
        (fun doc_id => (alGet s.document_store doc_id).isNone) then none
    else
      some (List.insertionSort result_score_desc (phrase_results idfv s phrase field),
        { s with phrase_cache := (alSet s.phrase_cache (cache_key phrase field)
            (List.insertionSort result_score_desc (phrase_results idfv s phrase field))) })

/-! ## Query parsing (`Searcher._detect_phrases`) -/

/-- Scan up to the next double quote: `some (before, after)` when one
exists. -/
def upToQuote : List Char → Option (List Char × List Char)
  | [] => none
  | c :: rest =>
    if c = '\x22' then some ([], rest)
    else
      match upToQuote rest with
      | none => none
      | some (a, b) => some (c :: a, b)

/-- The scanning loop of `find_quoted`, structurally recursive on a fuel
bound (any fuel of at least the list length gives the scan's result). -/
def find_quoted_aux : Nat → List Char → List String
  | 0, _ => []
  | Nat.succ fuel, cs =>
    match cs with
    | [] => []
    | c :: rest =>
      if c = '\x22' then
        match upToQuote rest with
        | some (a, b) => a.asString :: find_quoted_aux fuel b
        | none => []
      else find_quoted_aux fuel rest

/-- Models `re.findall(r'"([^"]*)"', query)`: the maximal quote-delimited
substrings, left to right; a final unmatched quote yields nothing. -/
def find_quoted (cs : List Char) : List String :=
  find_quoted_aux cs.length cs

/-- Embeds `Searcher._detect_phrases`: extract the quoted phrases, delete
them from the query text, preprocess the remainder into individual terms and
each phrase into its term list. -/
def detect_phrases (query : String) : List String × List (List String) :=
  let phrases := find_quoted query.data
  let remaining_text := phrases.foldl
    (fun text phrase => text.replace ("\x22" ++ phrase ++ "\x22") "") query
  (preprocess_text remaining_text, phrases.map preprocess_text)

/-! ## Query dispatch (`Searcher.search`) -/

/-- Embeds `Searcher.search`.  The merge of the combined phrase-and-terms
branch (a dict keyed by result id, then filtered by the phrase result ids)
is modelled as a filter of the term results by the phrase result ids, which
coincides with it whenever the term-search result ids are distinct. -/
def search (idfv : String → ℚ) (s : Indexer) (query : String) (field : Option Field)
    (use_phrase_query : Bool) : Option (List SearchResult × Indexer) :=
  if query = "" then some ([], s)
  else if use_phrase_query then phrase_search idfv s query field
  else
    match alGet s.phrase_cache (cache_key query field) with
    | some cached => some (cached, s)
    | none =>
      let parsed := detect_phrases query
      match parsed.2 with
      | [] => some (term_search idfv s parsed.1 field, s)
      | phrase0 :: _ =>
        if parsed.1.isEmpty then
          phrase_search idfv s (String.intercalate " " phrase0) field
        else
          match phrase_search idfv s (String.intercalate " " phrase0) field with
          | none => none
          | some (phrase_results, s1) =>
            let term_results := term_search idfv s1 parsed.1 field
            let merged := term_results.filter fun doc =>
              phrase_results.any fun pdoc => pdoc.id == doc.id
            some (merged, s1)

/-! ## IDF (`Indexer._calculate_idf`) -/

/-- Embeds `Indexer._calculate_idf`, with `math.log` modelled as `Real.log`:
`0` when the term is absent from `term_document_freq` or no document has
been counted, `ln(total_documents / term_document_freq[term])` otherwise. -/
noncomputable def calculate_idf (s : Indexer) (term : String) : ℝ :=
  if (alGet s.term_document_freq term).isNone ∨ s.total_documents = 0 then 0
  else Real.log ((s.total_documents : ℝ) / ((alGetD s.term_document_freq term 0 : ℕ) : ℝ))

/-! ## Reachable states -/

/-- Ingest a list of documents in order. -/
def ingest_all (docs : List Document) (s : Indexer) : Indexer :=
  docs.foldl (fun s doc => index_document doc s) s

/-- The states reachable from the empty index by ingestion calls. -/
def Reachable (s : Indexer) : Prop :=
  ∃ docs : List Document, s = ingest_all docs emptyIndexer

example : check_consecutive_terms ["dogs", "loyal"] ["loyal", "dogs"] = false := by decide
example : check_consecutive_terms ["dogs", "are", "loyal"] ["are", "loyal"] = true := by decide
example : check_consecutive_terms ["dogs"] ["dogs", "loyal"] = false := by decide
example : find_quoted "say \x22loyal dogs\x22 now".data = ["loyal dogs"] := by decide
example : find_quoted "loyal dogs".data = [] := by decide

/-! ## The sliding-window check agrees with contiguous containment -/

theorem terms_match_at_iff (ps ts : List String) :
    terms_match_at ps ts = true ↔ ps <+: ts := by
  induction ps generalizing ts with
  | nil => simp [terms_match_at, List.nil_prefix]
  | cons p ps ih =>
    cases ts with
    | nil => simp [terms_match_at]
    | cons t ts =>
      simp only [terms_match_at, Bool.and_eq_true, decide_eq_true_eq, ih,
        List.cons_prefix_cons]

theorem check_consecutive_terms_iff (tokens phrase_terms : List String) :
    check_consecutive_terms tokens phrase_terms = true ↔ phrase_terms <:+: tokens := by
  induction tokens with
  | nil =>
    unfold check_consecutive_terms
    cases phrase_terms with
    | nil => simp
    | cons p ps =>
      simp only [List.length_nil, List.length_cons, Nat.lt_add_one_iff, Nat.zero_le, if_true]
      constructor
      · intro h
        exact absurd h (by simp)
      · rintro ⟨pre, post, heq⟩
        exact absurd heq (by simp)
  | cons t rest ih =>
    unfold check_consecutive_terms
    by_cases hlen : (t :: rest).length < phrase_terms.length
    · rw [if_pos hlen]
      constructor
      · intro h
        exact absurd h (by simp)
      · rintro ⟨pre, post, heq⟩
        have hlen2 := congrArg List.length heq
        rw [List.length_append, List.length_append] at hlen2
        simp only [List.length_cons] at hlen2 hlen
        omega
    · rw [if_neg hlen]
      simp only [Bool.or_eq_true, terms_match_at_iff, ih]
      constructor
      · rintro (⟨r, hr⟩ | ⟨pre, post, heq⟩)
        · exact ⟨[], r, by simpa using hr⟩
        · exact ⟨t :: pre, post, by simp [heq]⟩
      · rintro ⟨pre, post, heq⟩
        cases pre with
        | nil =>
          exact Or.inl ⟨post, by simpa using heq⟩
        | cons x pre =>
          right
          obtain ⟨rfl, hrest⟩ : x = t ∧ pre ++ phrase_terms ++ post = rest := by
            have := heq
            simp only [List.cons_append] at this
            exact ⟨(List.cons.inj this).1, (List.cons.inj this).2⟩
          exact ⟨pre, post, hrest⟩

/-! ## C9 — the phrase cache is flushed by every ingestion -/

/-- C9: immediately after every ingestion call, the phrase cache contains no
entry that was present before the call — `index_document` unconditionally
replaces it by the empty dict. -/
theorem C9_cache_flushed_on_ingestion (document : Document) (s : Indexer) :
    (index_document document s).phrase_cache = [] ∧
    (∀ key, alGet (index_document document s).phrase_cache key = none) ∧
    (index_document_f (some SavePoint.saveIndex) document s).2.phrase_cache = [] := by
  exact ⟨rfl, fun _ => rfl, rfl⟩

/-! ## C8 — persistence failures propagate and nothing is rolled back -/

/-- C8: an ingestion whose persistence step fails propagates the storage
error instead of returning success, and every in-memory mutation already
applied stays in place: a failure of `_save_index` leaves the fully mutated
in-memory state (identical to the success state), a failure of
`save_document` leaves exactly the document-store replacement already
performed. -/
theorem C8_persistence_failure_not_rolled_back (p : SavePoint) (document : Document)
    (s : Indexer) :
    (index_document_f (some p) document s).1 = Except.error StorageError.storageError ∧
    (index_document_f (some SavePoint.saveIndex) document s).2 = index_document document s ∧
    (index_document_f (some SavePoint.saveDocument) document s).2 =
      { s with document_store := alSet s.document_store document.id (make_doc_record document) } ∧
    (index_document_f none document s).1 = Except.ok (index_document document s) := by
  refine ⟨?_, rfl, rfl, rfl⟩
  cases p <;> rfl

/-! ## C1 — total_documents counts ingestion calls, not distinct ids -/

/-- C1 (code evaluation): re-ingesting the id `"1"` increments
`total_documents` from 1 to 2, although the id was already present — the
source increments the counter unconditionally on every ingestion call. -/
theorem C1_total_documents_counts_calls :
    (get_index_stats (index_document ⟨"1", "cats", ""⟩ emptyIndexer)).total_documents = 1 ∧
    (get_index_stats (index_document ⟨"1", "cats", ""⟩
      (index_document ⟨"1", "cats", ""⟩ emptyIndexer))).total_documents = 2 := by
  exact ⟨rfl, rfl⟩

/-! ## C4 — document frequency counts ingestion calls, not distinct documents -/

/-- C4 (code evaluation): after ingesting the same single-term document
twice, `term_document_freq["cats"]` is 2 while the postings of `"cats"`
hold exactly one distinct document id — the stored count does not equal the
number of distinct document-id keys. -/
theorem C4_document_frequency_counts_calls :
    alGet (index_document ⟨"1", "cats", ""⟩
      (index_document ⟨"1", "cats", ""⟩ emptyIndexer)).term_document_freq "cats" = some 2 ∧
    (alKeys (alGetD (index_document ⟨"1", "cats", ""⟩
      (index_document ⟨"1", "cats", ""⟩ emptyIndexer)).inverted_index "cats" [])).dedup
      = ["1"] := by
  constructor <;> decide

/-! ## Key distinctness of the term-frequency vectors -/

theorem counter_fold_keys_nodup (tokens : List String) :
    ∀ acc : List (String × Nat), (alKeys acc).Nodup →
      (alKeys (tokens.foldl (fun acc t => alSet acc t (alGetD acc t 0 + 1)) acc)).Nodup := by
  induction tokens with
  | nil => exact fun acc h => h
  | cons t rest ih =>
    intro acc h
    exact ih _ (alNodupKeys_alSet _ _ _ h)

theorem counter_keys_nodup (tokens : List String) : (alKeys (counter tokens)).Nodup :=
  counter_fold_keys_nodup tokens [] (by simp [alKeys])

theorem alKeys_build_document_vector (tokens : List String) :
    alKeys (build_document_vector tokens) = alKeys (counter tokens) := by
  unfold build_document_vector alKeys
  rw [List.map_map]
  rfl

theorem build_document_vector_keys_nodup (tokens : List String) :
    (alKeys (build_document_vector tokens)).Nodup := by
  rw [alKeys_build_document_vector]
  exact counter_keys_nodup tokens

/-! ## Posting-level characterisation of the two update loops -/

theorem alGet_index_title_terms (doc_id : String) (tv : List (String × ℚ))
    (hn : (alKeys tv).Nodup) (ii : List (String × List (String × PostingEntry)))
    (term : String) :
    alGet (index_title_terms doc_id tv ii) term =
      match alGet tv term with
      | some tf => some (alSet (alGetD ii term []) doc_id ⟨tf, 0⟩)
      | none => alGet ii term := by
  induction tv generalizing ii with
  | nil => rfl
  | cons p rest ih =>
    have hkeys : alKeys (p :: rest) = p.1 :: alKeys rest := rfl
    rw [hkeys] at hn
    have hnotin : p.1 ∉ alKeys rest := (List.nodup_cons.mp hn).1
    have hn' : (alKeys rest).Nodup := (List.nodup_cons.mp hn).2
    have hstep : index_title_terms doc_id (p :: rest) ii =
        index_title_terms doc_id rest (alSet ii p.1 (alSet (alGetD ii p.1 []) doc_id ⟨p.2, 0⟩)) :=
      rfl
    rw [hstep, ih hn']
    by_cases hterm : p.1 = term
    · subst hterm
      have hrest : alGet rest p.1 = none := by
        cases hg : alGet rest p.1 with
        | none => rfl
        | some v =>
          exact absurd ((isSome_alGet_iff_mem_alKeys rest p.1).mp (by simp [hg])) hnotin
      rw [hrest, alGet_cons, if_pos rfl, alGet_alSet_self]
    · rw [alGet_cons, if_neg hterm]
      cases hg : alGet rest term with
      | some tf =>
        rw [alGetD, alGet_alSet_ne _ _ hterm]
        rfl
      | none =>
        rw [alGet_alSet_ne _ _ hterm]

theorem alGet_index_data_terms (doc_id : String) (dv : List (String × ℚ))
    (hn : (alKeys dv).Nodup) (ii : List (String × List (String × PostingEntry)))
    (term : String) :
    alGet (index_data_terms doc_id dv ii) term =
      match alGet dv term with
      | some tf =>
        some (alSet (alGetD ii term []) doc_id
          (match alGet (alGetD ii term []) doc_id with
           | some entry => ⟨entry.title_tf, tf⟩
           | none => ⟨0, tf⟩))
      | none => alGet ii term := by
  induction dv generalizing ii with
  | nil => rfl
  | cons p rest ih =>
    have hkeys : alKeys (p :: rest) = p.1 :: alKeys rest := rfl
    rw [hkeys] at hn
    have hnotin : p.1 ∉ alKeys rest := (List.nodup_cons.mp hn).1
    have hn' : (alKeys rest).Nodup := (List.nodup_cons.mp hn).2
    have hstep : index_data_terms doc_id (p :: rest) ii =
        index_data_terms doc_id rest
          (alSet ii p.1 (alSet (alGetD ii p.1 []) doc_id
            (match alGet (alGetD ii p.1 []) doc_id with
             | some entry => ⟨entry.title_tf, p.2⟩
             | none => ⟨0, p.2⟩))) := by
      show index_data_terms doc_id (p :: rest) ii = _
      unfold index_data_terms
      rw [List.foldl_cons]
      cases hg : alGet (alGetD ii p.1 []) doc_id <;> rfl
    rw [hstep, ih hn']
    by_cases hterm : p.1 = term
    · subst hterm
      have hrest : alGet rest p.1 = none := by
        cases hg : alGet rest p.1 with
        | none => rfl
        | some v =>
          exact absurd ((isSome_alGet_iff_mem_alKeys rest p.1).mp (by simp [hg])) hnotin
      rw [hrest, alGet_cons, if_pos rfl, alGet_alSet_self]
    · rw [alGet_cons, if_neg hterm]
      cases hg : alGet rest term with
      | some tf =>
        rw [alGetD, alGet_alSet_ne _ _ hterm]
        rfl
      | none =>
        rw [alGet_alSet_ne _ _ hterm]

/-- What `index_document` stores under `inverted_index[term][doc_id]` for the
ingested document, as a function of the two term vectors and the prior
posting. -/
theorem posting_of_index_document (document : Document) (s : Indexer) (term : String) :
    posting_of (index_document document s) term document.id =
      match alGet (build_document_vector (preprocess_text document.data)) term with
      | some dtf =>
        some (match alGet (build_document_vector (preprocess_text document.title)) term with
          | some ttf => ⟨ttf, dtf⟩
          | none =>
            match posting_of s term document.id with
            | some entry => ⟨entry.title_tf, dtf⟩
            | none => ⟨0, dtf⟩)
      | none =>
        match alGet (build_document_vector (preprocess_text document.title)) term with
        | some ttf => some ⟨ttf, 0⟩
        | none => posting_of s term document.id := by
  have htitle := alGet_index_title_terms document.id
    (build_document_vector (preprocess_text document.title))
    (build_document_vector_keys_nodup _) s.inverted_index term
  have hdata := alGet_index_data_terms document.id
    (build_document_vector (preprocess_text document.data))
    (build_document_vector_keys_nodup _)
    (index_title_terms document.id (build_document_vector (preprocess_text document.title))
      s.inverted_index) term
  show ((alGet (index_data_terms document.id
        (build_document_vector (preprocess_text document.data))
        (index_title_terms document.id (build_document_vector (preprocess_text document.title))
          s.inverted_index)) term).bind
      fun postings => alGet postings document.id) = _
  rw [hdata]
  cases hdv : alGet (build_document_vector (preprocess_text document.data)) term with
  | some dtf =>
    rw [alGetD, htitle]
    cases htv : alGet (build_document_vector (preprocess_text document.title)) term with
    | some ttf =>
      simp [alGet_alSet_self]
    | none =>
      unfold posting_of
      cases hii : alGet s.inverted_index term with
      | some postings => simp [alGet_alSet_self]
      | none => simp [alGet_alSet_self]
  | none =>
    rw [htitle]
    cases htv : alGet (build_document_vector (preprocess_text document.title)) term with
    | some ttf =>
      simp [alGet_alSet_self]
    | none =>
      rfl

/-! ## C5 — what the upsert does to the untouched field -/

/-- The spec's upsert claim (C5) as stated: when a posting for `(term, id)`
already exists and the term occurs in exactly one of the two field vectors,
only the updated field's tf is overwritten and the other field's stored tf
is left unchanged. -/
def C5_claim_untouched_field_preserved : Prop :=
  ∀ (document : Document) (s : Indexer) (term : String) (tf : ℚ) (entry : PostingEntry),
    posting_of s term document.id = some entry →
    ((alGet (build_document_vector (preprocess_text document.title)) term = some tf →
      alGet (build_document_vector (preprocess_text document.data)) term = none →
      posting_of (index_document document s) term document.id = some ⟨tf, entry.data_tf⟩) ∧
     (alGet (build_document_vector (preprocess_text document.title)) term = none →
      alGet (build_document_vector (preprocess_text document.data)) term = some tf →
      posting_of (index_document document s) term document.id = some ⟨entry.title_tf, tf⟩))

/-- C5 (counterexample): ingesting `{id "1", data "cats"}` stores the posting
`⟨0, 1⟩` for `("cats", "1")`; re-ingesting `{id "1", title "cats"}` (term in
the title vector only, posting already present) stores `⟨1, 0⟩`, zeroing the
stored `data_tf` instead of preserving it as the claim demands. -/
theorem C5_counterexample : ¬ C5_claim_untouched_field_preserved := by
  intro h
  have h1 : posting_of (index_document ⟨"1", "", "cats"⟩ emptyIndexer) "cats" "1" =
      some ⟨0, 1⟩ := by decide
  have h2 := (h ⟨"1", "cats", ""⟩ (index_document ⟨"1", "", "cats"⟩ emptyIndexer)
    "cats" 1 ⟨0, 1⟩ h1).1 (by decide) (by decide)
  have h3 : posting_of (index_document ⟨"1", "cats", ""⟩
      (index_document ⟨"1", "", "cats"⟩ emptyIndexer)) "cats" "1" = some ⟨1, 0⟩ := by decide
  rw [h3] at h2
  exact absurd (Option.some.inj h2) (by decide)

/-- C5 (amended): for a term in the title vector only, the upsert replaces
the whole posting with `⟨tf, 0⟩` — the untouched `data_tf` is reset to 0.0
whether or not the posting existed; for a term in the data vector only, the
upsert overwrites `data_tf` and preserves the stored `title_tf` of an
existing posting (defaulting it to 0.0 when the posting is new). -/
theorem C5_amended_upsert (document : Document) (s : Indexer) (term : String) (tf : ℚ) :
    (alGet (build_document_vector (preprocess_text document.title)) term = some tf →
     alGet (build_document_vector (preprocess_text document.data)) term = none →
     posting_of (index_document document s) term document.id = some ⟨tf, 0⟩) ∧
    (alGet (build_document_vector (preprocess_text document.title)) term = none →
     alGet (build_document_vector (preprocess_text document.data)) term = some tf →
     posting_of (index_document document s) term document.id =
       some ⟨(match posting_of s term document.id with
              | some entry => entry.title_tf
              | none => 0), tf⟩) := by
  constructor <;> intro h1 h2 <;> rw [posting_of_index_document, h1, h2]
  cases posting_of s term document.id <;> rfl

/-- C5 (witness): the data-only branch of the amended claim evaluated on a
fresh posting. -/
theorem C5_amended_upsert_witness :
    alGet (build_document_vector (preprocess_text "")) "cats" = none ∧
    alGet (build_document_vector (preprocess_text "cats")) "cats" = some 1 ∧
    posting_of (index_document ⟨"1", "", "cats"⟩ emptyIndexer) "cats" "1" = some ⟨0, 1⟩ := by
  refine ⟨by decide, by decide, ?_⟩
  have h := (C5_amended_upsert ⟨"1", "", "cats"⟩ emptyIndexer "cats" 1).2
    (by decide) (by decide)
  rw [h]
  rfl

/-! ## The accumulated document scores of term search -/

theorem alGet_of_mem_nodup {α : Type _} {m : List (String × α)} {k : String} {v : α}
    (hn : (alKeys m).Nodup) (hmem : (k, v) ∈ m) : alGet m k = some v := by
  induction m with
  | nil => simp at hmem
  | cons p rest ih =>
    have hkeys : alKeys (p :: rest) = p.1 :: alKeys rest := rfl
    rw [hkeys] at hn
    obtain ⟨hnotin, hn'⟩ := List.nodup_cons.mp hn
    rcases List.mem_cons.mp hmem with h | h
    · rw [← h, alGet_cons, if_pos rfl]
    · by_cases hp : p.1 = k
      · exact absurd (hp ▸ List.mem_map_of_mem Prod.fst h) hnotin
      · rw [alGet_cons, if_neg hp]
        exact ih hn' h

/-- The inner posting loop of `_term_search`, characterised at one document
id: it adds the selected tf·idf to the document's accumulated score when the
postings contain the id and leaves the accumulator unchanged otherwise. -/
theorem term_search_inner_fold (doc_id : String) (field : Option Field) (idf : ℚ)
    (postings : List (String × PostingEntry)) :
    (alKeys postings).Nodup →
    ∀ acc : List (String × ℚ),
      alGet (postings.foldl
        (fun acc2 p => alSet acc2 p.1 (alGetD acc2 p.1 0 + select_tf field p.2 * idf)) acc)
        doc_id =
      match alGet postings doc_id with
      | some entry => some (alGetD acc doc_id 0 + select_tf field entry * idf)
      | none => alGet acc doc_id := by
  induction postings with
  | nil => exact fun _ _ => rfl
  | cons p rest ih =>
    intro hn acc
    have hkeys : alKeys (p :: rest) = p.1 :: alKeys rest := rfl
    rw [hkeys] at hn
    obtain ⟨hnotin, hn'⟩ := List.nodup_cons.mp hn
    rw [List.foldl_cons, ih hn']
    by_cases hdoc : p.1 = doc_id
    · subst hdoc
      have hrest : alGet rest p.1 = none := by
        cases hg : alGet rest p.1 with
        | none => rfl
        | some v =>
          exact absurd ((isSome_alGet_iff_mem_alKeys rest p.1).mp (by simp [hg])) hnotin
      rw [hrest, alGet_cons, if_pos rfl, alGet_alSet_self]
    · rw [alGet_cons, if_neg hdoc]
      cases hg : alGet rest doc_id with
      | some e => simp only [alGetD, alGet_alSet_ne _ _ hdoc]
      | none => rw [alGet_alSet_ne _ _ hdoc]

/-- Key distinctness is preserved by the score accumulation loops. -/
theorem term_search_inner_fold_keys_nodup (field : Option Field) (idf : ℚ)
    (postings : List (String × PostingEntry)) :
    ∀ acc : List (String × ℚ), (alKeys acc).Nodup →
      (alKeys (postings.foldl
        (fun acc2 p => alSet acc2 p.1 (alGetD acc2 p.1 0 + select_tf field p.2 * idf)) acc)).Nodup := by
  induction postings with
  | nil => exact fun _ h => h
  | cons p rest ih =>
    intro acc h
    exact ih _ (alNodupKeys_alSet _ _ _ h)

/-- Every element of the inverted index has postings with distinct document
ids (true of every Python dict; assumed of the model state). -/
def wf_postings (s : Indexer) : Prop :=
  ∀ pr ∈ s.inverted_index, (alKeys pr.2).Nodup

instance (s : Indexer) : Decidable (wf_postings s) :=
  List.decidableBAll _ s.inverted_index

theorem term_search_outer_fold (idfv : String → ℚ) (s : Indexer) (field : Option Field)
    (doc_id : String) (hwf : wf_postings s) :
    ∀ (terms : List String) (acc : List (String × ℚ)),
      alGet (terms.foldl (term_search_step idfv s field) acc) doc_id =
        if (alGet acc doc_id).isSome ∨ ∃ t ∈ terms, (posting_of s t doc_id).isSome
        then some (alGetD acc doc_id 0 + accum_score idfv s field terms doc_id)
        else none := by
  intro terms
  induction terms with
  | nil =>
    intro acc
    simp only [List.foldl_nil, List.not_mem_nil, false_and, exists_false, or_false,
      accum_score, List.map_nil, List.sum_nil, add_zero]
    cases hg : alGet acc doc_id with
    | some v => simp [alGetD, hg]
    | none => simp [hg]
  | cons t rest ih =>
    intro acc
    rw [List.foldl_cons]
    cases hii : alGet s.inverted_index t with
    | none =>
      have hstep : term_search_step idfv s field acc t = acc := by
        unfold term_search_step
        rw [hii]
      have hts : term_score idfv s field t doc_id = 0 := by
        simp [term_score, posting_of, hii]
      have hpos : (posting_of s t doc_id).isSome = false := by
        simp [posting_of, hii]
      rw [hstep, ih acc]
      simp only [accum_score, List.map_cons, List.sum_cons, hts, zero_add,
        List.exists_mem_cons_iff, hpos, Bool.false_eq_true, false_or]
    | some postings =>
      have hnodup : (alKeys postings).Nodup := hwf _ (alGet_eq_some_mem hii)
      have hstep : term_search_step idfv s field acc t =
          postings.foldl
            (fun acc2 p => alSet acc2 p.1 (alGetD acc2 p.1 0 + select_tf field p.2 * idfv t))
            acc := by
        unfold term_search_step
        rw [hii]
      rw [hstep, ih _]
      have hinner := term_search_inner_fold doc_id field (idfv t) postings hnodup acc
      cases hpd : alGet postings doc_id with
      | some entry =>
        rw [hpd] at hinner
        simp only [alGetD] at hinner ⊢
        rw [hinner]
        have hpos : (posting_of s t doc_id).isSome = true := by
          simp [posting_of, hii, hpd]
        have hts : term_score idfv s field t doc_id = select_tf field entry * idfv t := by
          simp [term_score, posting_of, hii, hpd]
        have hc2 : (alGet acc doc_id).isSome = true ∨
            ∃ t1 ∈ t :: rest, (posting_of s t1 doc_id).isSome = true :=
          Or.inr ⟨t, List.mem_cons_self t rest, hpos⟩
        simp only [Option.isSome_some, true_or, if_true, Option.getD_some]
        rw [if_pos hc2]
        simp only [accum_score, List.map_cons, List.sum_cons, hts]
        rw [add_assoc]
      | none =>
        rw [hpd] at hinner
        simp only [alGetD] at hinner ⊢
        rw [hinner]
        have hpos : (posting_of s t doc_id).isSome = false := by
          simp [posting_of, hii, hpd]
        have hts : term_score idfv s field t doc_id = 0 := by
          simp [term_score, posting_of, hii, hpd]
        have hiff : (∃ t1 ∈ t :: rest, (posting_of s t1 doc_id).isSome = true) ↔
            ∃ t1 ∈ rest, (posting_of s t1 doc_id).isSome = true := by
          constructor
          · rintro ⟨x, hx, hp⟩
            rcases List.mem_cons.mp hx with rfl | hx
            · exact absurd (hpos ▸ hp) (by simp)
            · exact ⟨x, hx, hp⟩
          · rintro ⟨x, hx, hp⟩
            exact ⟨x, List.mem_cons_of_mem _ hx, hp⟩
        simp only [accum_score, List.map_cons, List.sum_cons, hts, zero_add, hiff]

/-- The `doc_scores` dict of `_term_search`, characterised: a document id is
present iff some query term has a posting for it, and then its value is the
accumulated score. -/
theorem alGet_doc_scores (idfv : String → ℚ) (s : Indexer) (field : Option Field)
    (terms : List String) (doc_id : String) (hwf : wf_postings s) :
    alGet (doc_scores_of idfv s field terms) doc_id =
      if ∃ t ∈ terms, (posting_of s t doc_id).isSome
      then some (accum_score idfv s field terms doc_id)
      else none := by
  unfold doc_scores_of
  rw [term_search_outer_fold idfv s field doc_id hwf terms []]
  simp [alGetD]

theorem doc_scores_fold_keys_nodup (idfv : String → ℚ) (s : Indexer) (field : Option Field)
    (terms : List String) :
    ∀ acc : List (String × ℚ), (alKeys acc).Nodup →
      (alKeys (terms.foldl (term_search_step idfv s field) acc)).Nodup := by
  induction terms with
  | nil => exact fun _ h => h
  | cons t rest ih =>
    intro acc h
    refine ih _ ?_
    unfold term_search_step
    cases alGet s.inverted_index t with
    | none => exact h
    | some postings => exact term_search_inner_fold_keys_nodup field (idfv t) postings acc h

theorem pairwise_filterMap_of {α β : Type _} {R : α → α → Prop} {S : β → β → Prop}
    (f : α → Option β)
    (hf : ∀ a b x y, R a b → f a = some x → f b = some y → S x y) :
    ∀ {l : List α}, l.Pairwise R → (l.filterMap f).Pairwise S := by
  intro l
  induction l with
  | nil => intro _; simp
  | cons a l ih =>
    intro h
    obtain ⟨hhead, htail⟩ := List.pairwise_cons.mp h
    rw [List.filterMap_cons]
    cases hfa : f a with
    | none => exact ih htail
    | some b =>
      refine List.pairwise_cons.mpr ⟨?_, ih htail⟩
      intro y hy
      obtain ⟨c, hc, hfc⟩ := List.mem_filterMap.mp hy
      exact hf a c b y (hhead c hc) hfa hfc

/-! ## C2 — what term search returns -/

/-- C2 (amended): for every term search, the results are ordered by score
descending, and the result list contains exactly the documents of the
document store holding a posting for at least one query term present in the
index — each with score `Σ tf·idf` under the selected field, zero-score
documents included (a body-only match under `field = title` is returned with
score 0, not excluded). -/
theorem C2_amended_term_search (idfv : String → ℚ) (s : Indexer) (terms : List String)
    (field : Option Field) (hwf : wf_postings s) :
    ((term_search idfv s terms field).map SearchResult.score).Pairwise (· ≥ ·) ∧
    (∀ doc_id doc, alGet s.document_store doc_id = some doc →
      (∃ t ∈ terms, (posting_of s t doc_id).isSome) →
      { id := doc.id, title := doc.title, data := doc.data,
        score := accum_score idfv s field terms doc_id } ∈ term_search idfv s terms field) ∧
    (∀ r ∈ term_search idfv s terms field, ∃ doc_id doc,
      alGet s.document_store doc_id = some doc ∧
      (∃ t ∈ terms, (posting_of s t doc_id).isSome) ∧
      r = { id := doc.id, title := doc.title, data := doc.data,
            score := accum_score idfv s field terms doc_id }) := by
  by_cases hte : terms.isEmpty = true
  · have hterms : terms = [] := by
      cases terms with
      | nil => rfl
      | cons a l => simp [List.isEmpty] at hte
    have hempty : term_search idfv s terms field = [] := by
      unfold term_search
      rw [if_pos hte]
    subst hterms
    rw [hempty]
    refine ⟨by simp, ?_, by simp⟩
    rintro doc_id doc hstore ⟨t, ht, _⟩
    simp at ht
  · have hsearch : term_search idfv s terms field =
        (List.insertionSort score_desc (doc_scores_of idfv s field terms)).filterMap
          (fun p => (alGet s.document_store p.1).map fun doc =>
            { id := doc.id, title := doc.title, data := doc.data, score := p.2 }) := by
      unfold term_search
      rw [if_neg hte]
    have hnodupD : (alKeys (doc_scores_of idfv s field terms)).Nodup :=
      doc_scores_fold_keys_nodup idfv s field terms [] (by simp [alKeys])
    rw [hsearch]
    refine ⟨?_, ?_, ?_⟩
    · have hsorted : (List.insertionSort score_desc
          (doc_scores_of idfv s field terms)).Pairwise score_desc :=
        List.sorted_insertionSort score_desc _
      have hpw : ((List.insertionSort score_desc (doc_scores_of idfv s field terms)).filterMap
          (fun p => (alGet s.document_store p.1).map fun doc =>
            { id := doc.id, title := doc.title, data := doc.data, score := p.2 })).Pairwise
          (fun r r' : SearchResult => r'.score ≤ r.score) := by
        refine pairwise_filterMap_of _ ?_ hsorted
        intro a b x y hab hfa hfb
        obtain ⟨da, _, hxa⟩ := Option.map_eq_some'.mp hfa
        obtain ⟨db, _, hyb⟩ := Option.map_eq_some'.mp hfb
        rw [← hxa, ← hyb]
        exact hab
      exact List.pairwise_map.mpr hpw
    · rintro doc_id doc hstore ⟨t, ht, hps⟩
      have hget : alGet (doc_scores_of idfv s field terms) doc_id =
          some (accum_score idfv s field terms doc_id) := by
        rw [alGet_doc_scores idfv s field terms doc_id hwf, if_pos ⟨t, ht, hps⟩]
      have hmemS : (doc_id, accum_score idfv s field terms doc_id) ∈
          List.insertionSort score_desc (doc_scores_of idfv s field terms) :=
        (List.perm_insertionSort score_desc _).mem_iff.mpr (alGet_eq_some_mem hget)
      exact List.mem_filterMap.mpr ⟨(doc_id, accum_score idfv s field terms doc_id), hmemS,
        by rw [show alGet s.document_store (doc_id, accum_score idfv s field terms doc_id).1 =
            some doc from hstore]; rfl⟩
    · intro r hr
      obtain ⟨p, hpmem, hfp⟩ := List.mem_filterMap.mp hr
      obtain ⟨doc_id, score⟩ := p
      have hpD : (doc_id, score) ∈ doc_scores_of idfv s field terms :=
        (List.perm_insertionSort score_desc _).mem_iff.mp hpmem
      have hgetD : alGet (doc_scores_of idfv s field terms) doc_id = some score :=
        alGet_of_mem_nodup hnodupD hpD
      rw [alGet_doc_scores idfv s field terms doc_id hwf] at hgetD
      by_cases hcond : ∃ t ∈ terms, (posting_of s t doc_id).isSome = true
      · rw [if_pos hcond] at hgetD
        have hscore : score = accum_score idfv s field terms doc_id :=
          (Option.some.inj hgetD).symm
        obtain ⟨doc, hdoc, hrg⟩ := Option.map_eq_some'.mp hfp
        refine ⟨doc_id, doc, hdoc, hcond, ?_⟩
        rw [← hrg, hscore]
      · rw [if_neg hcond] at hgetD
        cases hgetD

/-- The term-search claim (C2) as stated, in the part the code violates:
every returned result has a nonzero accumulated score (so that a body-only
match is excluded from a `field = title` search). -/
def C2_claim_nonzero_scores : Prop :=
  ∀ (idfv : String → ℚ) (s : Indexer) (terms : List String) (field : Option Field)
    (r : SearchResult), wf_postings s → r ∈ term_search idfv s terms field → r.score ≠ 0

/-- C2 (counterexample): after ingesting `{id "2", title "Birds", data "Dogs
are loyal"}` (a state where the true idf of every term is `ln 1 = 0`, so the
constant-zero idf assignment is the real one), the term search for `"dogs"`
with `field = title` returns the document with accumulated score 0 instead
of excluding it. -/
theorem C2_counterexample :
    term_search (fun _ => 0) (index_document ⟨"2", "Birds", "Dogs are loyal"⟩ emptyIndexer)
      ["dogs"] (some Field.title) =
      [{ id := "2", title := "Birds", data := "Dogs are loyal", score := 0 }] ∧
    ¬ C2_claim_nonzero_scores := by
  constructor
  · decide
  · intro h
    exact h (fun _ => 0) (index_document ⟨"2", "Birds", "Dogs are loyal"⟩ emptyIndexer)
      ["dogs"] (some Field.title) { id := "2", title := "Birds", data := "Dogs are loyal", score := 0 }
      (by decide) (by decide) rfl

/-- C2 (witness): the amended theorem applied to the spec's two-document
scenario, searching `"dogs"` in the title field. -/
theorem C2_amended_term_search_witness :
    wf_postings (ingest_all [⟨"1", "Cats and Dogs", "Cats are great pets"⟩,
      ⟨"2", "Birds", "Dogs are loyal"⟩] emptyIndexer) ∧
    ((term_search (fun _ => 0) (ingest_all [⟨"1", "Cats and Dogs", "Cats are great pets"⟩,
        ⟨"2", "Birds", "Dogs are loyal"⟩] emptyIndexer) ["dogs"] (some Field.title)).map
      SearchResult.score).Pairwise (· ≥ ·) := by
  refine ⟨by decide, ?_⟩
  exact (C2_amended_term_search (fun _ => 0)
    (ingest_all [⟨"1", "Cats and Dogs", "Cats are great pets"⟩,
      ⟨"2", "Birds", "Dogs are loyal"⟩] emptyIndexer) ["dogs"] (some Field.title) (by decide)).1

/-! ## C3 — the cache check in front of query dispatch -/

theorem find_quoted_aux_no_quote : ∀ (fuel : Nat) (cs : List Char),
    (∀ c ∈ cs, c ≠ '\x22') → find_quoted_aux fuel cs = [] := by
  intro fuel
  induction fuel with
  | zero => exact fun _ _ => rfl
  | succ fuel ih =>
    intro cs h
    cases cs with
    | nil => rfl
    | cons c rest =>
      have hc : c ≠ '\x22' := h c (List.mem_cons_self _ _)
      show (if c = '\x22' then _ else find_quoted_aux fuel rest) = []
      rw [if_neg hc]
      exact ih rest fun x hx => h x (List.mem_cons_of_mem _ hx)

theorem find_quoted_no_quote (query : String) (h : ∀ c ∈ query.data, c ≠ '\x22') :
    find_quoted query.data = [] :=
  find_quoted_aux_no_quote _ _ h

theorem detect_phrases_no_quote (query : String) (h : ∀ c ∈ query.data, c ≠ '\x22') :
    detect_phrases query = (preprocess_text query, []) := by
  unfold detect_phrases
  rw [find_quoted_no_quote query h]
  rfl

/-- The dispatch claim (C3) as stated: a query with no quoted phrase and
`forcePhrase` unset is always answered by recomputing the term search on the
current index state — no prior phrase-cache entry under the same text ever
determines the result. -/
def C3_claim_term_queries_recompute : Prop :=
  ∀ (idfv : String → ℚ) (s : Indexer) (query : String) (field : Option Field),
    (∀ c ∈ query.data, c ≠ '\x22') →
    search idfv s query field false =
      some (term_search idfv s (preprocess_text query) field, s)

/-- The spec scenario state for C3: one ingested document and the phrase
cache entry left behind by a forced phrase search for `"loyal dogs"`. -/
def c3_state : Indexer :=
  { index_document ⟨"2", "Birds", "Dogs are loyal"⟩ emptyIndexer with
    phrase_cache := [(cache_key "loyal dogs" none, [])] }

/-- C3 (counterexample): the phrase search for `"loyal dogs"` caches `[]`
under the key `"loyal dogs:None"`; the later term-only search for the
unquoted query `"loyal dogs"` hits that entry at the top of `search` and
returns `[]`, although recomputing the term search on the same state yields
the ingested document — a prior phrase-cache entry does determine the result
of a term-only search. -/
theorem C3_counterexample :
    phrase_search (fun _ => 0) (index_document ⟨"2", "Birds", "Dogs are loyal"⟩ emptyIndexer)
      "loyal dogs" none = some ([], c3_state) ∧
    search (fun _ => 0) c3_state "loyal dogs" none false = some ([], c3_state) ∧
    term_search (fun _ => 0) c3_state (preprocess_text "loyal dogs") none =
      [{ id := "2", title := "Birds", data := "Dogs are loyal", score := 0 }] ∧
    ¬ C3_claim_term_queries_recompute := by
  refine ⟨by decide, by decide, by decide, ?_⟩
  intro h
  have h2 := h (fun _ => 0) c3_state "loyal dogs" none (by decide)
  rw [show search (fun _ => 0) c3_state "loyal dogs" none false = some ([], c3_state) from
    by decide] at h2
  exact absurd h2 (by decide)

/-- C3 (amended): `search` consults the phrase cache under the key
`query:field` before any parsing, for every non-empty non-forced query; on a
hit the cached list is returned unchanged (even for a term-only query), and
only on a miss does a quote-free query recompute the term search on the
current index state. -/
theorem C3_amended_search_cache (idfv : String → ℚ) (s : Indexer) (query : String)
    (field : Option Field) :
    (∀ cached, query ≠ "" → alGet s.phrase_cache (cache_key query field) = some cached →
      search idfv s query field false = some (cached, s)) ∧
    (alGet s.phrase_cache (cache_key query field) = none →
     (∀ c ∈ query.data, c ≠ '\x22') →
     search idfv s query field false =
       some (term_search idfv s (preprocess_text query) field, s)) := by
  constructor
  · intro cached hq hc
    unfold search
    rw [if_neg hq]
    simp only [Bool.false_eq_true, if_false]
    rw [hc]
  · intro hc hnq
    by_cases hq : query = ""
    · subst hq
      have hterm : term_search idfv s (preprocess_text "") field = [] := by
        have hp : preprocess_text "" = [] := by decide
        rw [hp]
        rfl
      unfold search
      rw [if_pos rfl, hterm]
    · unfold search
      rw [if_neg hq]
      simp only [Bool.false_eq_true, if_false]
      rw [hc, detect_phrases_no_quote query hnq]

/-- C3 (witness): the cache-hit branch of the amended claim at the scenario
state. -/
theorem C3_amended_search_cache_witness :
    alGet c3_state.phrase_cache (cache_key "loyal dogs" none) = some [] ∧
    search (fun _ => 0) c3_state "loyal dogs" none false = some ([], c3_state) := by
  refine ⟨by decide, ?_⟩
  exact (C3_amended_search_cache (fun _ => 0) c3_state "loyal dogs" none).1 []
    (by decide) (by decide)

/-! ## C6 — phrase verification -/

theorem phrase_match_iff (field : Option Field) (terms : List String) (doc : DocRecord) :
    phrase_match field terms doc = true ↔
      ((field = none ∨ field = some Field.title) ∧ terms <:+: doc.title_tokens) ∨
      ((field = none ∨ field = some Field.data) ∧ terms <:+: doc.data_tokens) := by
  unfold phrase_match
  simp [check_consecutive_terms_iff]

theorem phrase_candidates_empty_of_absent (s : Indexer) (terms : List String)
    (h : terms.any (fun term => (alGet s.inverted_index term).isNone) = true) :
    phrase_candidates s terms = [] := by
  cases terms with
  | nil => rfl
  | cons t rest =>
    have hred : phrase_candidates s (t :: rest) =
        match alGet s.inverted_index t with
        | none => []
        | some postings =>
          if rest.all (fun term => (alGet s.inverted_index term).isSome) then
            (alKeys postings).filter fun doc_id =>
              rest.all fun term => (alGet (alGetD s.inverted_index term []) doc_id).isSome
          else [] := rfl
    rw [hred]
    cases hii : alGet s.inverted_index t with
    | none => rfl
    | some postings =>
      have hrest : rest.any (fun term => (alGet s.inverted_index term).isNone) = true := by
        rcases List.any_eq_true.mp h with ⟨x, hx, hI⟩
        rcases List.mem_cons.mp hx with rfl | hx
        · rw [hii] at hI
          simp at hI
        · exact List.any_eq_true.mpr ⟨x, hx, hI⟩
      have hall : rest.all (fun term => (alGet s.inverted_index term).isSome) = false := by
        rcases List.any_eq_true.mp hrest with ⟨x, hx, hI⟩
        cases hb : rest.all (fun term => (alGet s.inverted_index term).isSome) with
        | false => rfl
        | true =>
          have hxs := List.all_eq_true.mp hb x hx
          have hnone : alGet s.inverted_index x = none :=
            Option.isNone_iff_eq_none.mp (by simpa using hI)
          rw [hnone] at hxs
          simp at hxs
      rw [hall]
      simp

/-- C6: for every phrase search computed against the index (cache miss), a
candidate document appears in the result list iff the phrase terms occur as
a contiguous, order-preserving subsequence of the token sequence of at least
one field allowed by the filter; every result is such a candidate, carrying
the boosted phrase score. -/
theorem C6_phrase_verification (idfv : String → ℚ) (s : Indexer) (phrase : String)
    (field : Option Field) (res : List SearchResult) (s2 : Indexer)
    (hmiss : alGet s.phrase_cache (cache_key phrase field) = none)
    (hrun : phrase_search idfv s phrase field = some (res, s2)) :
    (∀ doc_id ∈ phrase_candidates s (preprocess_text phrase),
      ∀ doc, alGet s.document_store doc_id = some doc →
        (((field = none ∨ field = some Field.title) ∧
            preprocess_text phrase <:+: doc.title_tokens) ∨
         ((field = none ∨ field = some Field.data) ∧
            preprocess_text phrase <:+: doc.data_tokens)) →
        { id := doc.id, title := doc.title, data := doc.data,
          score := phrase_score idfv s field (preprocess_text phrase) doc_id } ∈ res) ∧
    (∀ r ∈ res, ∃ doc_id ∈ phrase_candidates s (preprocess_text phrase), ∃ doc,
      alGet s.document_store doc_id = some doc ∧
      (((field = none ∨ field = some Field.title) ∧
          preprocess_text phrase <:+: doc.title_tokens) ∨
       ((field = none ∨ field = some Field.data) ∧
          preprocess_text phrase <:+: doc.data_tokens)) ∧
      r = { id := doc.id, title := doc.title, data := doc.data,
            score := phrase_score idfv s field (preprocess_text phrase) doc_id }) := by
  unfold phrase_search at hrun
  rw [hmiss] at hrun
  by_cases hpe : (preprocess_text phrase).isEmpty = true
  · rw [if_pos hpe] at hrun
    obtain ⟨hres, _⟩ : [] = res ∧ s = s2 := by
      have h := Option.some.inj hrun
      exact ⟨congrArg Prod.fst h, congrArg Prod.snd h⟩
    subst hres
    have hcand : phrase_candidates s (preprocess_text phrase) = [] := by
      cases hc : preprocess_text phrase with
      | nil => rfl
      | cons a l => rw [hc] at hpe; simp [List.isEmpty] at hpe
    rw [hcand]
    exact ⟨by simp, by simp⟩
  · rw [if_neg hpe] at hrun
    by_cases hab : (preprocess_text phrase).any
        (fun term => (alGet s.inverted_index term).isNone) = true
    · rw [if_pos hab] at hrun
      obtain ⟨hres, _⟩ : [] = res ∧ s = s2 := by
        have h := Option.some.inj hrun
        exact ⟨congrArg Prod.fst h, congrArg Prod.snd h⟩
      subst hres
      rw [phrase_candidates_empty_of_absent s _ hab]
      exact ⟨by simp, by simp⟩
    · rw [if_neg hab] at hrun
      by_cases hguard : (phrase_candidates s (preprocess_text phrase)).any
          (fun doc_id => (alGet s.document_store doc_id).isNone) = true
      · rw [if_pos hguard] at hrun
        cases hrun
      · rw [if_neg hguard] at hrun
        obtain ⟨hres, _⟩ : List.insertionSort result_score_desc
            (phrase_results idfv s phrase field) = res ∧ _ = s2 := by
          have h := Option.some.inj hrun
          exact ⟨congrArg Prod.fst h, congrArg Prod.snd h⟩
        subst hres
        constructor
        · intro doc_id hcand doc hdoc hmatch
          refine (List.perm_insertionSort result_score_desc _).mem_iff.mpr ?_
          refine List.mem_filterMap.mpr ⟨doc_id, hcand, ?_⟩
          rw [hdoc, Option.some_bind, if_pos ((phrase_match_iff field _ doc).mpr hmatch)]
        · intro r hr
          obtain ⟨doc_id, hcand, hfd⟩ := List.mem_filterMap.mp
            ((List.perm_insertionSort result_score_desc _).mem_iff.mp hr)
          cases hdoc : alGet s.document_store doc_id with
          | none => rw [hdoc, Option.none_bind] at hfd; cases hfd
          | some doc =>
            rw [hdoc, Option.some_bind] at hfd
            by_cases hm : phrase_match field (preprocess_text phrase) doc = true
            · rw [if_pos hm] at hfd
              exact ⟨doc_id, hcand, doc, hdoc,
                (phrase_match_iff field _ doc).mp hm, (Option.some.inj hfd).symm⟩
            · rw [if_neg hm] at hfd
              cases hfd

/-- C6 (witness): the spec scenario — after ingesting `{id "2", title
"Birds", data "Dogs are loyal"}`, the forced phrase search for `"loyal
dogs"` (a cache miss) returns `[]`: the lone candidate `"2"` matches in no
allowed field because `["loyal", "dogs"]` is not a contiguous subsequence of
either token sequence. -/
theorem C6_phrase_verification_witness :
    alGet (index_document ⟨"2", "Birds", "Dogs are loyal"⟩ emptyIndexer).phrase_cache
      (cache_key "loyal dogs" none) = none ∧
    phrase_search (fun _ => 0) (index_document ⟨"2", "Birds", "Dogs are loyal"⟩ emptyIndexer)
      "loyal dogs" none = some ([], c3_state) ∧
    "2" ∈ phrase_candidates (index_document ⟨"2", "Birds", "Dogs are loyal"⟩ emptyIndexer)
      (preprocess_text "loyal dogs") ∧
    ((((none : Option Field) = none ∨ (none : Option Field) = some Field.title) ∧
        preprocess_text "loyal dogs" <:+:
          (make_doc_record ⟨"2", "Birds", "Dogs are loyal"⟩).title_tokens) ∨
      (((none : Option Field) = none ∨ (none : Option Field) = some Field.data) ∧
        preprocess_text "loyal dogs" <:+:
          (make_doc_record ⟨"2", "Birds", "Dogs are loyal"⟩).data_tokens) →
      { id := "2", title := "Birds", data := "Dogs are loyal",
        score := phrase_score (fun _ => 0)
          (index_document ⟨"2", "Birds", "Dogs are loyal"⟩ emptyIndexer) none
          (preprocess_text "loyal dogs") "2" } ∈ ([] : List SearchResult)) := by
  refine ⟨by decide, by decide, by decide, ?_⟩
  intro hmatch
  exact (C6_phrase_verification (fun _ => 0)
    (index_document ⟨"2", "Birds", "Dogs are loyal"⟩ emptyIndexer) "loyal dogs" none
    [] c3_state (by decide) (by decide)).1 "2" (by decide)
    (make_doc_record ⟨"2", "Birds", "Dogs are loyal"⟩) (by decide) hmatch

/-! ## Reachability invariants -/

/-- Every document id holding a posting in the inverted index is a key of
the document store. -/
def store_covers (s : Indexer) : Prop :=
  ∀ pr ∈ s.inverted_index, ∀ e ∈ pr.2, (alGet s.document_store e.1).isSome

instance (s : Indexer) : Decidable (store_covers s) :=
  List.decidableBAll _ s.inverted_index

/-- Every stored document-frequency count is at least 1. -/
def df_positive (s : Indexer) : Prop :=
  ∀ pr ∈ s.term_document_freq, 1 ≤ pr.2

instance (s : Indexer) : Decidable (df_positive s) :=
  List.decidableBAll _ s.term_document_freq

theorem posting_upsert_pred (P : String → Prop) (doc_id : String) (hP : P doc_id)
    (ii : List (String × List (String × PostingEntry))) (t : String) (X : PostingEntry)
    (h : ∀ pr ∈ ii, ∀ e ∈ pr.2, P e.1) :
    ∀ pr ∈ alSet ii t (alSet (alGetD ii t []) doc_id X), ∀ e ∈ pr.2, P e.1 := by
  intro pr hpr e he
  rcases mem_of_mem_alSet hpr with rfl | hpr
  · rcases mem_of_mem_alSet he with rfl | he
    · exact hP
    · cases hg : alGet ii t with
      | none =>
        unfold alGetD at he
        rw [hg] at he
        simp at he
      | some postings =>
        unfold alGetD at he
        rw [hg] at he
        simp only [Option.getD_some] at he
        exact h _ (alGet_eq_some_mem hg) e he
  · exact h pr hpr e he

theorem index_title_terms_pred (P : String → Prop) (doc_id : String) (hP : P doc_id)
    (tv : List (String × ℚ)) :
    ∀ ii, (∀ pr ∈ ii, ∀ e ∈ pr.2, P e.1) →
      ∀ pr ∈ index_title_terms doc_id tv ii, ∀ e ∈ pr.2, P e.1 := by
  induction tv with
  | nil => exact fun ii h => h
  | cons p rest ih =>
    intro ii h
    exact ih _ (posting_upsert_pred P doc_id hP ii p.1 ⟨p.2, 0⟩ h)

theorem index_data_terms_pred (P : String → Prop) (doc_id : String) (hP : P doc_id)
    (dv : List (String × ℚ)) :
    ∀ ii, (∀ pr ∈ ii, ∀ e ∈ pr.2, P e.1) →
      ∀ pr ∈ index_data_terms doc_id dv ii, ∀ e ∈ pr.2, P e.1 := by
  induction dv with
  | nil => exact fun ii h => h
  | cons p rest ih =>
    intro ii h
    have hstep : index_data_terms doc_id (p :: rest) ii =
        index_data_terms doc_id rest
          (match alGet (alGetD ii p.1 []) doc_id with
           | some entry => alSet ii p.1 (alSet (alGetD ii p.1 []) doc_id ⟨entry.title_tf, p.2⟩)
           | none => alSet ii p.1 (alSet (alGetD ii p.1 []) doc_id ⟨0, p.2⟩)) := by
      unfold index_data_terms
      rw [List.foldl_cons]
    rw [hstep]
    refine ih _ ?_
    cases alGet (alGetD ii p.1 []) doc_id with
    | some entry => exact posting_upsert_pred P doc_id hP ii p.1 _ h
    | none => exact posting_upsert_pred P doc_id hP ii p.1 _ h

theorem index_document_store_covers (document : Document) (s : Indexer)
    (h : store_covers s) : store_covers (index_document document s) := by
  have hids : ∀ pr ∈ (index_document document s).inverted_index, ∀ e ∈ pr.2,
      e.1 = document.id ∨ (alGet s.document_store e.1).isSome := by
    have h0 : ∀ pr ∈ s.inverted_index, ∀ e ∈ pr.2,
        e.1 = document.id ∨ (alGet s.document_store e.1).isSome :=
      fun pr hpr e he => Or.inr (h pr hpr e he)
    exact index_data_terms_pred
      (fun x => x = document.id ∨ (alGet s.document_store x).isSome = true)
      document.id (Or.inl rfl) _ _
      (index_title_terms_pred
        (fun x => x = document.id ∨ (alGet s.document_store x).isSome = true)
        document.id (Or.inl rfl) _ _ h0)
  intro pr hpr e he
  have hstore : (index_document document s).document_store =
      alSet s.document_store document.id (make_doc_record document) := rfl
  rw [hstore]
  rcases hids pr hpr e he with heq | hsome
  · rw [heq, alGet_alSet_self]
    rfl
  · rw [alGet_alSet]
    by_cases hde : document.id = e.1
    · rw [if_pos hde]
      rfl
    · rw [if_neg hde]
      exact hsome

theorem index_document_df_positive (document : Document) (s : Indexer)
    (h : df_positive s) : df_positive (index_document document s) := by
  have hfold : ∀ (updated : List String) (m : List (String × Nat)),
      (∀ pr ∈ m, 1 ≤ pr.2) →
      ∀ pr ∈ updated.foldl (fun m t => alSet m t (alGetD m t 0 + 1)) m, 1 ≤ pr.2 := by
    intro updated
    induction updated with
    | nil => exact fun m hm => hm
    | cons t rest ih =>
      intro m hm
      refine ih _ ?_
      intro pr hpr
      rcases mem_of_mem_alSet hpr with rfl | hpr
      · simp
      · exact hm pr hpr
  exact hfold _ s.term_document_freq h

theorem reachable_invariant (s : Indexer) (h : Reachable s) :
    store_covers s ∧ df_positive s := by
  obtain ⟨docs, rfl⟩ := h
  suffices hstep : ∀ (docs : List Document) (s0 : Indexer),
      store_covers s0 ∧ df_positive s0 →
      store_covers (ingest_all docs s0) ∧ df_positive (ingest_all docs s0) by
    refine hstep docs emptyIndexer ⟨?_, ?_⟩
    · intro pr hpr
      cases hpr
    · intro pr hpr
      cases hpr
  intro docs
  induction docs with
  | nil => exact fun s0 h0 => h0
  | cons d rest ih =>
    intro s0 h0
    exact ih _ ⟨index_document_store_covers d s0 h0.1,
      index_document_df_positive d s0 h0.2⟩

theorem phrase_candidates_covered (s : Indexer) (hcov : store_covers s)
    (terms : List String) :
    ∀ doc_id ∈ phrase_candidates s terms, (alGet s.document_store doc_id).isSome := by
  intro doc_id hd
  cases terms with
  | nil => cases hd
  | cons t rest =>
    have hred : phrase_candidates s (t :: rest) =
        match alGet s.inverted_index t with
        | none => []
        | some postings =>
          if rest.all (fun term => (alGet s.inverted_index term).isSome) then
            (alKeys postings).filter fun doc_id =>
              rest.all fun term => (alGet (alGetD s.inverted_index term []) doc_id).isSome
          else [] := rfl
    rw [hred] at hd
    revert hd
    cases hii : alGet s.inverted_index t with
    | none => intro hd; cases hd
    | some postings =>
      show (doc_id ∈ if rest.all (fun term => (alGet s.inverted_index term).isSome) then
          (alKeys postings).filter fun doc_id =>
            rest.all fun term => (alGet (alGetD s.inverted_index term []) doc_id).isSome
        else []) → (alGet s.document_store doc_id).isSome
      by_cases hall : rest.all (fun term => (alGet s.inverted_index term).isSome) = true
      · rw [if_pos hall]
        intro hd
        obtain ⟨hmem, _⟩ := List.mem_filter.mp hd
        have hsome := (isSome_alGet_iff_mem_alKeys postings doc_id).mpr hmem
        obtain ⟨entry, hentry⟩ := Option.isSome_iff_exists.mp hsome
        exact hcov (t, postings) (alGet_eq_some_mem hii) (doc_id, entry)
          (alGet_eq_some_mem hentry)
      · rw [if_neg hall]
        intro hd
        cases hd

/-! ## C10 — posting ids are always stored documents -/

/-- C10: in every state reachable from the empty index by ingestions, every
document id occurring in any posting of the inverted index is a key of the
document store, and consequently phrase search (whose per-candidate document
lookup is the only point that can raise) never fails. -/
theorem C10_postings_covered_by_store (s : Indexer) (h : Reachable s) :
    store_covers s ∧
    ∀ (idfv : String → ℚ) (phrase : String) (field : Option Field),
      (phrase_search idfv s phrase field).isSome := by
  have hcov := (reachable_invariant s h).1
  refine ⟨hcov, ?_⟩
  intro idfv phrase field
  unfold phrase_search
  cases hc : alGet s.phrase_cache (cache_key phrase field) with
  | some cached => rfl
  | none =>
    by_cases hpe : (preprocess_text phrase).isEmpty = true
    · rw [if_pos hpe]
      rfl
    · rw [if_neg hpe]
      by_cases hab : (preprocess_text phrase).any
          (fun term => (alGet s.inverted_index term).isNone) = true
      · rw [if_pos hab]
        rfl
      · rw [if_neg hab]
        have hguard : (phrase_candidates s (preprocess_text phrase)).any
            (fun doc_id => (alGet s.document_store doc_id).isNone) = false := by
          cases hg : (phrase_candidates s (preprocess_text phrase)).any
              (fun doc_id => (alGet s.document_store doc_id).isNone) with
          | false => rfl
          | true =>
            obtain ⟨doc_id, hdmem, hnone⟩ := List.any_eq_true.mp hg
            have hsome := phrase_candidates_covered s hcov (preprocess_text phrase)
              doc_id hdmem
            have hnone2 : alGet s.document_store doc_id = none :=
              Option.isNone_iff_eq_none.mp (by simpa using hnone)
            rw [hnone2] at hsome
            cases hsome
        rw [hguard]
        simp

/-- C10 (witness): the invariant and phrase-search totality at the state
reached by one ingestion. -/
theorem C10_postings_covered_by_store_witness :
    Reachable (ingest_all [⟨"2", "Birds", "Dogs are loyal"⟩] emptyIndexer) ∧
    store_covers (ingest_all [⟨"2", "Birds", "Dogs are loyal"⟩] emptyIndexer) ∧
    (phrase_search (fun _ => 0) (ingest_all [⟨"2", "Birds", "Dogs are loyal"⟩] emptyIndexer)
      "loyal dogs" none).isSome := by
  have hreach : Reachable (ingest_all [⟨"2", "Birds", "Dogs are loyal"⟩] emptyIndexer) :=
    ⟨[⟨"2", "Birds", "Dogs are loyal"⟩], rfl⟩
  have h := C10_postings_covered_by_store _ hreach
  exact ⟨hreach, h.1, h.2 (fun _ => 0) "loyal dogs" none⟩

/-! ## C7 — idf is antitone in document frequency -/

/-- C7: in every reachable state with a positive document count, of two
terms present in `term_document_freq`, the one with the strictly smaller
count has the not-smaller idf (`idf` is 0 for an absent term or an empty
corpus and `ln(total_documents / df)` otherwise). -/
theorem C7_idf_antitone (s : Indexer) (A B : String) (dfA dfB : ℕ)
    (hreach : Reachable s)
    (hA : alGet s.term_document_freq A = some dfA)
    (hB : alGet s.term_document_freq B = some dfB)
    (hlt : dfA < dfB) (hpos : 0 < s.total_documents) :
    calculate_idf s B ≤ calculate_idf s A := by
  have hdfA : 1 ≤ dfA := (reachable_invariant s hreach).2 (A, dfA) (alGet_eq_some_mem hA)
  have hcondA : ¬((alGet s.term_document_freq A).isNone = true ∨ s.total_documents = 0) := by
    rintro (hn | hz)
    · rw [hA] at hn
      simp at hn
    · omega
  have hcondB : ¬((alGet s.term_document_freq B).isNone = true ∨ s.total_documents = 0) := by
    rintro (hn | hz)
    · rw [hB] at hn
      simp at hn
    · omega
  unfold calculate_idf
  rw [if_neg hcondB, if_neg hcondA]
  unfold alGetD
  rw [hA, hB]
  simp only [Option.getD_some]
  have hN : (0:ℝ) < (s.total_documents : ℝ) := by exact_mod_cast hpos
  have hA0 : (0:ℝ) < (dfA : ℝ) := by exact_mod_cast Nat.lt_of_lt_of_le Nat.zero_lt_one hdfA
  have hB0 : (0:ℝ) < (dfB : ℝ) := by
    have : 0 < dfB := Nat.lt_of_le_of_lt (Nat.zero_le dfA) hlt
    exact_mod_cast this
  apply Real.log_le_log
  · positivity
  · have hle : (dfA : ℝ) ≤ (dfB : ℝ) := by exact_mod_cast le_of_lt hlt
    gcongr

/-- C7 (witness): two documents where `"alpha"` occurs in one and `"beta"`
in both, so `df(alpha) = 1 < 2 = df(beta)` with `total_documents = 2`. -/
theorem C7_idf_antitone_witness :
    Reachable (ingest_all [⟨"1", "", "alpha beta"⟩, ⟨"2", "", "beta gamma"⟩] emptyIndexer) ∧
    alGet (ingest_all [⟨"1", "", "alpha beta"⟩, ⟨"2", "", "beta gamma"⟩]
      emptyIndexer).term_document_freq "alpha" = some 1 ∧
    alGet (ingest_all [⟨"1", "", "alpha beta"⟩, ⟨"2", "", "beta gamma"⟩]
      emptyIndexer).term_document_freq "beta" = some 2 ∧
    0 < (ingest_all [⟨"1", "", "alpha beta"⟩, ⟨"2", "", "beta gamma"⟩]
      emptyIndexer).total_documents ∧
    calculate_idf (ingest_all [⟨"1", "", "alpha beta"⟩, ⟨"2", "", "beta gamma"⟩]
        emptyIndexer) "beta" ≤
      calculate_idf (ingest_all [⟨"1", "", "alpha beta"⟩, ⟨"2", "", "beta gamma"⟩]
        emptyIndexer) "alpha" := by
  refine ⟨⟨[⟨"1", "", "alpha beta"⟩, ⟨"2", "", "beta gamma"⟩], rfl⟩, by decide, by decide,
    by decide, ?_⟩
  exact C7_idf_antitone _ "alpha" "beta" 1 2
    ⟨[⟨"1", "", "alpha beta"⟩, ⟨"2", "", "beta gamma"⟩], rfl⟩
    (by decide) (by decide) (by decide) (by decide)

end SimpleElasticSearch
